import Mathlib

/-!
Shallow embedding of the chess move-resolution engine
(src/c/chess.h, src/c/chess.c).

Conventions of the source preserved here:
  * a `Position` is a pair of `Int` coordinates `(rank, file)`, where the
    rank axis corresponds to the letter a..h (index 0..7) and the file axis
    to the digit 1..8 (index 0..7); the sentinel value `-1` marks an
    unknown hint component, exactly as in `game_deduce_start`;
  * the board `struct piece *board[8][8]` becomes a total function
    `Int → Int → Option Piece`; `none` is the NULL pointer.  Cells that
    `game_new` never assigns are modelled as empty, per the NULL-means-empty
    convention documented on `struct game`;
  * C strings become `List Char`; the terminating NUL is the empty list and
    `peek` returns `Char.ofNat 0` there, so the C pattern `*alg` is `peek alg`
    and `alg++` is `List.tail`;
  * functions reporting failure through an `int` code and `fprintf` become
    `Except ResolveError _`; the error constructors are named after the
    messages printed at each failure site.
-/

/-- Embeds `enum piece_type` from chess.h. -/
inductive PieceType where
  | pawn
  | knight
  | bishop
  | rook
  | queen
  | king
  deriving DecidableEq, Repr

/-- Embeds `struct piece` from chess.h. -/
structure Piece where
  type : PieceType
  is_white : Bool
  has_moved : Bool
  deriving DecidableEq, Repr

/-- Embeds `struct position` from chess.c. -/
structure Position where
  rank : Int
  file : Int
  deriving DecidableEq, Repr

/-- Embeds `struct move` from chess.c.  The C struct also carries a `promotion`
field, but `game_translate` never writes it and `game_move` never reads it,
so it is omitted from the embedding. -/
structure Move where
  start : Position
  end_ : Position
  deriving DecidableEq, Repr

/-- The board array of `struct game`: `none` is a NULL cell. -/
abbrev Board := Int → Int → Option Piece

/-- Embeds `struct game` from chess.h. -/
structure Game where
  board : Board
  en_passant : Option Piece
  white_turn : Bool

/-- Failure sites of `game_translate` / `game_deduce_start`, one constructor
per distinct error message printed by the C code. -/
inductive ResolveError where
  | expectedRank
  | expectedFile
  | invalidPromotion
  | noLegalSource
  | ambiguousSource (count : Nat)
  deriving DecidableEq, Repr

/-- The error taxonomy of the specification (section 7). -/
inductive ErrorKind where
  | MalformedToken
  | NoLegalSource
  | AmbiguousSource (count : Nat)
  deriving DecidableEq, Repr

/-- Classification of the concrete failure sites into the specification's
error taxonomy: the three scan failures are `MalformedToken`. -/
def ResolveError.kind : ResolveError → ErrorKind
  | .expectedRank => .MalformedToken
  | .expectedFile => .MalformedToken
  | .invalidPromotion => .MalformedToken
  | .noLegalSource => .NoLegalSource
  | .ambiguousSource n => .AmbiguousSource n

/-- The piece placed by `game_new` on the back rows (`board[r][0]` white and
`board[r][7]` black), read off the explicit assignment list in `game_new`. -/
def back_rank_type (r : Int) : PieceType :=
  if r = 0 ∨ r = 7 then .rook
  else if r = 1 ∨ r = 6 then .knight
  else if r = 2 ∨ r = 5 then .bishop
  else if r = 3 then .queen
  else .king

/-- Embeds `game_new` from chess.c: standard starting board, no en-passant piece,
white to move.  `piece_new` always sets `has_moved = false`. -/
def game_new : Game where
  board := fun r f =>
    if 0 ≤ r ∧ r < 8 then
      if f = 0 then some ⟨back_rank_type r, true, false⟩
      else if f = 7 then some ⟨back_rank_type r, false, false⟩
      else if f = 1 then some ⟨PieceType.pawn, true, false⟩
      else if f = 6 then some ⟨PieceType.pawn, false, false⟩
      else none
    else none
  en_passant := none
  white_turn := true

/-- The local `int rank_diff = abs(end.rank - start.rank)` of `game_is_reachable`. -/
def rank_diff (s e : Position) : Nat := (e.rank - s.rank).natAbs

/-- The local `int file_diff = abs(end.file - start.file)` of `game_is_reachable`. -/
def file_diff (s e : Position) : Nat := (e.file - s.file).natAbs

/-- The local `int rank_inc = rank_diff == 0 ? 0 : (end.rank - start.rank) / rank_diff`.
The division is exact, so every division convention agrees. -/
def rank_inc (s e : Position) : Int :=
  if rank_diff s e = 0 then 0 else (e.rank - s.rank) / (rank_diff s e : Int)

/-- The local `int file_inc = file_diff == 0 ? 0 : (end.file - start.file) / file_diff`. -/
def file_inc (s e : Position) : Int :=
  if file_diff s e = 0 then 0 else (e.file - s.file) / (file_diff s e : Int)

/-- The local `int inc = piece->is_white ? 1 : -1` of the pawn case. -/
def pawn_inc (p : Piece) : Int := if p.is_white then 1 else -1

/-- The ray-walking loop at the bottom of `game_is_reachable`:
`for (r = start.rank + rank_inc, f = start.file + file_inc; r != end.rank ||
f != end.file; r += rank_inc, f += file_inc) if (board[r][f]) return false;
return true;`.  The loop condition is tested first, then the body, then the
step; the recursion is driven by a fuel counter, and `game_is_reachable`
passes exactly `max rank_diff file_diff` units of fuel, which is proved
sufficient (the loop always exits by reaching `end`) in the lemmas below. -/
def ray_walk (b : Board) (er ef ri fi : Int) : Nat → Int → Int → Bool
  | 0, _, _ => true
  | fuel + 1, r, f =>
    if r = er ∧ f = ef then true
    else
      match b r f with
      | some _ => false
      | none => ray_walk b er ef ri fi fuel (r + ri) (f + fi)

/-- Number of unit steps from `start` to `end` along the ray. -/
def ray_steps (s e : Position) : Nat := max (rank_diff s e) (file_diff s e)

/-- Embeds `game_is_reachable` from chess.c. -/
def game_is_reachable (g : Game) (s e : Position) : Bool :=
  match g.board s.rank s.file with
  | none => false
  | some piece =>
    match piece.type with
    | .pawn =>
      if rank_diff s e ≤ 1 ∧ e.file = s.file + pawn_inc piece then true
      else if e.rank = s.rank ∧ e.file = s.file + 2 * pawn_inc piece then
        !piece.has_moved && (g.board s.rank (s.file + pawn_inc piece)).isNone
      else false
    | .knight =>
      decide ((rank_diff s e = 2 ∧ file_diff s e = 1) ∨
              (rank_diff s e = 1 ∧ file_diff s e = 2))
    | .bishop =>
      if rank_diff s e ≠ file_diff s e then false
      else ray_walk g.board e.rank e.file (rank_inc s e) (file_inc s e)
        (ray_steps s e) (s.rank + rank_inc s e) (s.file + file_inc s e)
    | .rook =>
      if rank_diff s e ≠ 0 ∧ file_diff s e ≠ 0 then false
      else ray_walk g.board e.rank e.file (rank_inc s e) (file_inc s e)
        (ray_steps s e) (s.rank + rank_inc s e) (s.file + file_inc s e)
    | .queen =>
      if rank_diff s e ≠ file_diff s e ∧ rank_diff s e ≠ 0 ∧ file_diff s e ≠ 0 then false
      else ray_walk g.board e.rank e.file (rank_inc s e) (file_inc s e)
        (ray_steps s e) (s.rank + rank_inc s e) (s.file + file_inc s e)
    | .king => decide (rank_diff s e ≤ 1 ∧ file_diff s e ≤ 1)

/-- The candidate test of `game_deduce_start`: `piece != NULL && piece->type
== type && piece->is_white == game->white_turn && game_is_reachable(...)`. -/
def deduce_match (g : Game) (t : PieceType) (e p : Position) : Bool :=
  match g.board p.rank p.file with
  | none => false
  | some piece =>
    decide (piece.type = t) && decide (piece.is_white = g.white_turn) &&
      game_is_reachable g p e

/-- The squares scanned by `game_deduce_start` for a given hint: the four
branches on `start->rank != -1` / `start->file != -1` scan, respectively, the
single hinted square, the hinted rank, the hinted file, or the whole board
(rank-major, as the nested C loops do). -/
def deduce_scanned (s : Position) : List Position :=
  if s.rank ≠ -1 ∧ s.file ≠ -1 then [s]
  else if s.rank ≠ -1 then (List.range 8).map (fun (f : Nat) => ⟨s.rank, (f : Int)⟩)
  else if s.file ≠ -1 then (List.range 8).map (fun (r : Nat) => ⟨(r : Int), s.file⟩)
  else (List.range 8).flatMap
    (fun (r : Nat) => (List.range 8).map (fun (f : Nat) => ⟨(r : Int), (f : Int)⟩))

/-- The return block of `game_deduce_start`: `found == 0` is the
no-pieces-found error, `found == 1` writes `new_start` into the output, and
anything else is the ambiguous-move error carrying `found`. -/
def deduce_return (found : Nat) (new_start : Position) : Except ResolveError Position :=
  if found = 0 then .error .noLegalSource
  else if found = 1 then .ok new_start
  else .error (.ambiguousSource found)

/-- Embeds `game_deduce_start` from chess.c: count matches (`found`) while keeping
the most recent match (`new_start`), then return `NoLegalSource` on zero,
the found square on one, `AmbiguousSource` with the count otherwise. -/
def game_deduce_start (g : Game) (t : PieceType) (e s : Position) :
    Except ResolveError Position :=
  let result := (deduce_scanned s).foldl
    (fun acc p => if deduce_match g t e p then (acc.1 + 1, p) else acc)
    ((0 : Nat), s)
  deduce_return result.1 result.2

/-- The candidate squares of a deduction: scanned squares passing the
candidate test. -/
def deduce_candidates (g : Game) (t : PieceType) (e s : Position) : List Position :=
  (deduce_scanned s).filter (deduce_match g t e)

/-- C `isspace` in the default locale, on the characters a C string can hold. -/
def c_isspace (c : Char) : Bool :=
  c = ' ' || c = '\t' || c = '\n' || c = '\x0b' || c = '\x0c' || c = '\r'

/-- The leading-whitespace loop `while (isspace(*alg)) alg++;`. -/
def skip_space : List Char → List Char
  | [] => []
  | c :: rest => if c_isspace c then skip_space rest else c :: rest

/-- The NUL character terminating a C string. -/
def nul : Char := Char.ofNat 0

/-- Reads `*alg`: the current character, NUL at the end of the string. -/
def peek (l : List Char) : Char := l.headD nul

/-- Character arithmetic such as `*alg - '1'`. -/
def char_diff (c d : Char) : Int := (c.toNat : Int) - (d.toNat : Int)

/-- Embeds `game_translate` from chess.c.  Stages: skip whitespace; optional piece
letter; optional `x`; optional digit (starting-file hint); mandatory letter
(destination rank) with possible reinterpretation as starting rank if a
second letter follows; mandatory digit (destination file); optional long-form
letter+digit pair reinterpreting the previous pair as the starting square
(note: the C code does not advance past the final digit there); promotion
letter demanded when the piece is a pawn and `end.rank` is 7 (white) or 0
(black), the parsed promotion piece being discarded exactly as the C code
drops it; finally `game_deduce_start` fills in the starting square. -/
def game_translate (g : Game) (alg0 : List Char) : Except ResolveError Move :=
  let alg1 := skip_space alg0
  let step1 : PieceType × List Char :=
    match peek alg1 with
    | 'N' => (.knight, alg1.tail)
    | 'B' => (.bishop, alg1.tail)
    | 'R' => (.rook, alg1.tail)
    | 'Q' => (.queen, alg1.tail)
    | 'K' => (.king, alg1.tail)
    | _ => (.pawn, alg1)
  let t := step1.1
  let alg2 := if peek step1.2 = 'x' then step1.2.tail else step1.2
  let step2 : Int × List Char :=
    if '1' ≤ peek alg2 ∧ peek alg2 ≤ '8' then (char_diff (peek alg2) '1', alg2.tail)
    else (-1, alg2)
  let sf0 := step2.1
  let alg3 := step2.2
  if 'a' ≤ peek alg3 ∧ peek alg3 ≤ 'h' then
    let er0 := char_diff (peek alg3) 'a'
    let alg4 := alg3.tail
    let step4 : Int × Int × List Char :=
      if 'a' ≤ peek alg4 ∧ peek alg4 ≤ 'h' then (er0, char_diff (peek alg4) 'a', alg4.tail)
      else (-1, er0, alg4)
    let sr1 := step4.1
    let er1 := step4.2.1
    let alg5 := step4.2.2
    if '1' ≤ peek alg5 ∧ peek alg5 ≤ '8' then
      let ef1 := char_diff (peek alg5) '1'
      let alg6 := alg5.tail
      let step6 : Except ResolveError (Int × Int × Int × Int × List Char) :=
        if 'a' ≤ peek alg6 ∧ peek alg6 ≤ 'h' then
          let er2 := char_diff (peek alg6) 'a'
          let alg7 := alg6.tail
          if '1' ≤ peek alg7 ∧ peek alg7 ≤ '8' then
            .ok (er1, ef1, er2, char_diff (peek alg7) '1', alg7)
          else .error .expectedFile
        else .ok (sr1, sf0, er1, ef1, alg6)
      match step6 with
      | .error err => .error err
      | .ok (sr, sf, er, ef, alg8) =>
        let promo : Except ResolveError PieceType :=
          if t = .pawn ∧ ((g.white_turn ∧ er = 7) ∨ (¬g.white_turn ∧ er = 0)) then
            let alg9 := if peek alg8 = '=' then alg8.tail else alg8
            match peek alg9 with
            | 'N' => .ok .knight
            | 'B' => .ok .bishop
            | 'R' => .ok .rook
            | 'Q' => .ok .queen
            | _ => .error .invalidPromotion
          else .ok t
        match promo with
        | .error err => .error err
        | .ok _ =>
          match game_deduce_start g t ⟨er, ef⟩ ⟨sr, sf⟩ with
          | .error err => .error err
          | .ok s => .ok ⟨s, ⟨er, ef⟩⟩
    else .error .expectedFile
  else .error .expectedRank

/-- Functional update of one board cell. -/
def board_set (b : Board) (r f : Int) (q : Option Piece) : Board :=
  fun r2 f2 => if r2 = r ∧ f2 = f then q else b r2 f2

/-- Embeds `game_move` from chess.c, with the in-place mutation made explicit as a
returned game: on a translation failure the game is returned unchanged with
status 1; on success the destination cell receives the piece from the start
cell (the old occupant of the destination is freed), the start cell becomes
NULL, `en_passant` is reset to NULL and the turn flips, with status 0.
No field of the moved piece (in particular `has_moved`) is modified. -/
def game_move (g : Game) (alg : List Char) : Game × Nat :=
  match game_translate g alg with
  | .error _ => (g, 1)
  | .ok m =>
    ({ board := board_set
          (board_set g.board m.end_.rank m.end_.file (g.board m.start.rank m.start.file))
          m.start.rank m.start.file none,
       en_passant := none,
       white_turn := !g.white_turn }, 0)

/-- The squares strictly between `s` and `e` along the connecting ray, in
walk order. -/
def squares_between (s e : Position) : List Position :=
  (List.range (ray_steps s e - 1)).map
    (fun (i : Nat) => ⟨s.rank + ((i : Int) + 1) * rank_inc s e,
                       s.file + ((i : Int) + 1) * file_inc s e⟩)

/-- The direction check a bishop/rook/queen move must pass before the ray
walk in `game_is_reachable` (the negation of each early `return false`). -/
def shape_ok (t : PieceType) (s e : Position) : Bool :=
  match t with
  | .bishop => rank_diff s e == file_diff s e
  | .rook => rank_diff s e == 0 || file_diff s e == 0
  | .queen => (rank_diff s e == file_diff s e) || (rank_diff s e == 0) ||
      (file_diff s e == 0)
  | _ => false

/-- A position within the 8x8 board. -/
def valid_pos (p : Position) : Prop :=
  0 ≤ p.rank ∧ p.rank < 8 ∧ 0 ≤ p.file ∧ p.file < 8

/-- A board holding a single white bishop in the corner, used for concrete
instantiations. -/
def game_bishop_only : Game where
  board := fun r f => if r = 0 ∧ f = 0 then some ⟨.bishop, true, false⟩ else none
  en_passant := none
  white_turn := true

instance (p : Position) : Decidable (valid_pos p) := by
  unfold valid_pos
  exact inferInstance

/-! ### Helper lemmas -/

theorem int_div_natAbs_mul (t : Int) :
    t / (t.natAbs : Int) * (t.natAbs : Int) = t :=
  Int.ediv_mul_cancel (Int.natAbs_dvd.mpr dvd_rfl)

theorem rank_inc_mul (s e : Position) :
    rank_inc s e * (rank_diff s e : Int) = e.rank - s.rank := by
  unfold rank_inc rank_diff
  by_cases h : (e.rank - s.rank).natAbs = 0
  · rw [if_pos h, h, Int.natAbs_eq_zero.mp h]
    ring
  · rw [if_neg h]
    exact int_div_natAbs_mul _

theorem file_inc_mul (s e : Position) :
    file_inc s e * (file_diff s e : Int) = e.file - s.file := by
  unfold file_inc file_diff
  by_cases h : (e.file - s.file).natAbs = 0
  · rw [if_pos h, h, Int.natAbs_eq_zero.mp h]
    ring
  · rw [if_neg h]
    exact int_div_natAbs_mul _

theorem rank_inc_pm (s e : Position) (h : rank_diff s e ≠ 0) :
    rank_inc s e = 1 ∨ rank_inc s e = -1 := by
  have hm := rank_inc_mul s e
  have habs : (rank_inc s e).natAbs * rank_diff s e = rank_diff s e := by
    have h1 : (rank_inc s e * (rank_diff s e : Int)).natAbs = rank_diff s e := by
      rw [hm]
      rfl
    rwa [Int.natAbs_mul, Int.natAbs_ofNat] at h1
  have h2 : (rank_inc s e).natAbs = 1 :=
    Nat.eq_of_mul_eq_mul_right (Nat.pos_of_ne_zero h) (habs.trans (one_mul _).symm)
  rcases Int.natAbs_eq_iff.mp h2 with h3 | h3
  · exact Or.inl (by simpa using h3)
  · exact Or.inr (by simpa using h3)

theorem file_inc_pm (s e : Position) (h : file_diff s e ≠ 0) :
    file_inc s e = 1 ∨ file_inc s e = -1 := by
  have hm := file_inc_mul s e
  have habs : (file_inc s e).natAbs * file_diff s e = file_diff s e := by
    have h1 : (file_inc s e * (file_diff s e : Int)).natAbs = file_diff s e := by
      rw [hm]
      rfl
    rwa [Int.natAbs_mul, Int.natAbs_ofNat] at h1
  have h2 : (file_inc s e).natAbs = 1 :=
    Nat.eq_of_mul_eq_mul_right (Nat.pos_of_ne_zero h) (habs.trans (one_mul _).symm)
  rcases Int.natAbs_eq_iff.mp h2 with h3 | h3
  · exact Or.inl (by simpa using h3)
  · exact Or.inr (by simpa using h3)

theorem rank_diff_zero (s e : Position) (h : rank_diff s e = 0) :
    rank_inc s e = 0 ∧ e.rank = s.rank := by
  refine ⟨by unfold rank_inc; rw [if_pos h], ?_⟩
  unfold rank_diff at h
  have := Int.natAbs_eq_zero.mp h
  omega

theorem file_diff_zero (s e : Position) (h : file_diff s e = 0) :
    file_inc s e = 0 ∧ e.file = s.file := by
  refine ⟨by unfold file_inc; rw [if_pos h], ?_⟩
  unfold file_diff at h
  have := Int.natAbs_eq_zero.mp h
  omega

theorem shape_reach_rank (s e : Position)
    (hq : rank_diff s e = file_diff s e ∨ rank_diff s e = 0 ∨ file_diff s e = 0) :
    s.rank + (ray_steps s e : Int) * rank_inc s e = e.rank := by
  rcases Nat.eq_zero_or_pos (rank_diff s e) with h | h
  · obtain ⟨hi, he'⟩ := rank_diff_zero s e h
    rw [hi, he']
    ring
  · have hd : rank_diff s e = ray_steps s e := by
      unfold ray_steps
      omega
    rw [← hd]
    linear_combination rank_inc_mul s e

theorem shape_reach_file (s e : Position)
    (hq : rank_diff s e = file_diff s e ∨ rank_diff s e = 0 ∨ file_diff s e = 0) :
    s.file + (ray_steps s e : Int) * file_inc s e = e.file := by
  rcases Nat.eq_zero_or_pos (file_diff s e) with h | h
  · obtain ⟨hi, he'⟩ := file_diff_zero s e h
    rw [hi, he']
    ring
  · have hd : file_diff s e = ray_steps s e := by
      unfold ray_steps
      omega
    rw [← hd]
    linear_combination file_inc_mul s e

theorem shape_no_early (s e : Position)
    (hq : rank_diff s e = file_diff s e ∨ rank_diff s e = 0 ∨ file_diff s e = 0)
    (j : Nat) (hj : j < ray_steps s e) :
    ¬(s.rank + (j : Int) * rank_inc s e = e.rank ∧
      s.file + (j : Int) * file_inc s e = e.file) := by
  rintro ⟨h1, h2⟩
  have hd : rank_diff s e = ray_steps s e ∨ file_diff s e = ray_steps s e := by
    unfold ray_steps
    omega
  have hr := shape_reach_rank s e hq
  have hf := shape_reach_file s e hq
  rcases hd with hd | hd
  · have hne : rank_diff s e ≠ 0 := by omega
    rcases rank_inc_pm s e hne with hi | hi <;> rw [hi] at h1 hr <;> omega
  · have hne : file_diff s e ≠ 0 := by omega
    rcases file_inc_pm s e hne with hi | hi <;> rw [hi] at h2 hf <;> omega

theorem ray_walk_iff (b : Board) (er ef ri fi : Int) :
    ∀ (n : Nat) (r f : Int) (fuel : Nat), n + 1 ≤ fuel →
      r + (n : Int) * ri = er → f + (n : Int) * fi = ef →
      (∀ i : Nat, i < n → ¬(r + (i : Int) * ri = er ∧ f + (i : Int) * fi = ef)) →
      (ray_walk b er ef ri fi fuel r f = true ↔
        ∀ i : Nat, i < n → b (r + (i : Int) * ri) (f + (i : Int) * fi) = none) := by
  intro n
  induction n with
  | zero =>
    intro r f fuel hfuel hr hf _
    obtain ⟨m, rfl⟩ : ∃ m, fuel = m + 1 := ⟨fuel - 1, by omega⟩
    simp only [Nat.cast_zero, zero_mul, add_zero] at hr hf
    simp [ray_walk, hr, hf]
  | succ n ih =>
    intro r f fuel hfuel hr hf hno
    obtain ⟨m, rfl⟩ : ∃ m, fuel = m + 1 := ⟨fuel - 1, by omega⟩
    have h0 : ¬(r = er ∧ f = ef) := by
      have := hno 0 (by omega)
      simpa using this
    rw [ray_walk, if_neg h0]
    cases locc : b r f with
    | some q =>
      simp only
      constructor
      · intro hfalse
        cases hfalse
      · intro hall
        have h00 := hall 0 (by omega)
        simp only [Nat.cast_zero, zero_mul, add_zero] at h00
        rw [locc] at h00
        cases h00
    | none =>
      simp only
      have hrec := ih (r + ri) (f + fi) m (by omega)
        (by push_cast at hr ⊢; linear_combination hr)
        (by push_cast at hf ⊢; linear_combination hf)
        (by
          intro i hi hcon
          apply hno (i + 1) (by omega)
          constructor
          · push_cast
            linear_combination hcon.1
          · push_cast
            linear_combination hcon.2)
      rw [hrec]
      constructor
      · intro h i hi
        cases i with
        | zero =>
          simpa using locc
        | succ i =>
          have hx := h i (by omega)
          have e1 : r + ((i + 1 : Nat) : Int) * ri = r + ri + (i : Int) * ri := by
            push_cast
            ring
          have e2 : f + ((i + 1 : Nat) : Int) * fi = f + fi + (i : Int) * fi := by
            push_cast
            ring
          rw [e1, e2]
          exact hx
      · intro h i hi
        have hx := h (i + 1) (by omega)
        have e1 : r + ((i + 1 : Nat) : Int) * ri = r + ri + (i : Int) * ri := by
          push_cast
          ring
        have e2 : f + ((i + 1 : Nat) : Int) * fi = f + fi + (i : Int) * fi := by
          push_cast
          ring
        rw [e1, e2] at hx
        exact hx

theorem ray_walk_at_end (b : Board) (er ef ri fi : Int) :
    ∀ m : Nat, ray_walk b er ef ri fi m er ef = true := by
  intro m
  cases m with
  | zero => rfl
  | succ m => simp [ray_walk]

theorem squares_between_mem (s e q : Position) :
    q ∈ squares_between s e ↔
      ∃ i : Nat, i < ray_steps s e - 1 ∧
        q = ⟨s.rank + ((i : Int) + 1) * rank_inc s e,
             s.file + ((i : Int) + 1) * file_inc s e⟩ := by
  unfold squares_between
  rw [List.mem_map]
  constructor
  · rintro ⟨i, hi, rfl⟩
    exact ⟨i, List.mem_range.mp hi, rfl⟩
  · rintro ⟨i, hi, rfl⟩
    exact ⟨i, List.mem_range.mpr hi, rfl⟩

theorem walk_between_iff (g : Game) (s e : Position)
    (hq : rank_diff s e = file_diff s e ∨ rank_diff s e = 0 ∨ file_diff s e = 0) :
    (ray_walk g.board e.rank e.file (rank_inc s e) (file_inc s e) (ray_steps s e)
        (s.rank + rank_inc s e) (s.file + file_inc s e) = true)
      ↔ ∀ q ∈ squares_between s e, g.board q.rank q.file = none := by
  rcases Nat.eq_zero_or_pos (ray_steps s e) with hd | hd
  · rw [hd]
    simp only [ray_walk]
    simp [squares_between, hd]
  · obtain ⟨d, hdd⟩ : ∃ d, ray_steps s e = d + 1 := ⟨ray_steps s e - 1, by omega⟩
    have hr := shape_reach_rank s e hq
    have hf := shape_reach_file s e hq
    rw [hdd] at hr hf
    have hiff := ray_walk_iff g.board e.rank e.file (rank_inc s e) (file_inc s e) d
      (s.rank + rank_inc s e) (s.file + file_inc s e) (d + 1) (le_refl _)
      (by push_cast at hr ⊢; linear_combination hr)
      (by push_cast at hf ⊢; linear_combination hf)
      (by
        intro i hi hcon
        apply shape_no_early s e hq (i + 1) (by omega)
        constructor
        · push_cast
          linear_combination hcon.1
        · push_cast
          linear_combination hcon.2)
    rw [hdd, hiff]
    constructor
    · intro h q hqmem
      rw [squares_between_mem] at hqmem
      obtain ⟨i, hi, rfl⟩ := hqmem
      rw [hdd] at hi
      have hx := h i (by omega)
      have e1 : s.rank + ((i : Int) + 1) * rank_inc s e
          = s.rank + rank_inc s e + (i : Int) * rank_inc s e := by ring
      have e2 : s.file + ((i : Int) + 1) * file_inc s e
          = s.file + file_inc s e + (i : Int) * file_inc s e := by ring
      dsimp only
      rw [e1, e2]
      exact hx
    · intro h i hi
      have hmem : (⟨s.rank + ((i : Int) + 1) * rank_inc s e,
          s.file + ((i : Int) + 1) * file_inc s e⟩ : Position) ∈ squares_between s e := by
        rw [squares_between_mem]
        exact ⟨i, by omega, rfl⟩
      have hx := h _ hmem
      dsimp only at hx
      have e1 : s.rank + ((i : Int) + 1) * rank_inc s e
          = s.rank + rank_inc s e + (i : Int) * rank_inc s e := by ring
      have e2 : s.file + ((i : Int) + 1) * file_inc s e
          = s.file + file_inc s e + (i : Int) * file_inc s e := by ring
      rw [e1, e2] at hx
      exact hx

theorem shape_ok_disj (t : PieceType) (s e : Position) (h : shape_ok t s e = true) :
    rank_diff s e = file_diff s e ∨ rank_diff s e = 0 ∨ file_diff s e = 0 := by
  cases t <;> simp [shape_ok] at h <;> tauto

theorem reachable_brq (g : Game) (s e : Position) (p : Piece)
    (hp : g.board s.rank s.file = some p)
    (hsh : shape_ok p.type s e = true) :
    game_is_reachable g s e =
      ray_walk g.board e.rank e.file (rank_inc s e) (file_inc s e)
        (ray_steps s e) (s.rank + rank_inc s e) (s.file + file_inc s e) := by
  obtain ⟨pt, pw, pm⟩ := p
  unfold game_is_reachable
  rw [hp]
  cases pt
  case pawn => simp [shape_ok] at hsh
  case knight => simp [shape_ok] at hsh
  case king => simp [shape_ok] at hsh
  case bishop =>
    simp only [shape_ok, beq_iff_eq] at hsh
    dsimp only
    rw [if_neg (by omega)]
  case rook =>
    simp only [shape_ok, Bool.or_eq_true, beq_iff_eq] at hsh
    dsimp only
    rw [if_neg (by omega)]
  case queen =>
    simp only [shape_ok, Bool.or_eq_true, beq_iff_eq] at hsh
    dsimp only
    rw [if_neg (by omega)]

theorem count_last_foldl (m : Position → Bool) :
    ∀ (l : List Position) (n : Nat) (p : Position),
      l.foldl (fun acc q => if m q then (acc.1 + 1, q) else acc) (n, p)
        = (n + (l.filter m).length, (l.filter m).foldl (fun _ q => q) p) := by
  intro l
  induction l with
  | nil =>
    intro n p
    simp
  | cons a l ih =>
    intro n p
    by_cases h : m a = true
    · rw [List.foldl_cons, if_pos h, ih]
      have hf : (a :: l).filter m = a :: l.filter m := by
        simp [List.filter_cons, h]
      rw [hf]
      simp only [List.length_cons, List.foldl_cons, Prod.mk.injEq]
      exact ⟨by omega, trivial⟩
    · rw [List.foldl_cons, if_neg h, ih]
      have hf : (a :: l).filter m = l.filter m := by
        simp [List.filter_cons, h]
      rw [hf]


/-! ### Claim theorems -/

/-- Claim C1 (code evaluation at the failing input): from the starting
position, `game_move` on token `e4` succeeds; afterwards the destination
square (rank 4, file 3) holds the pawn relocated from (rank 4, file 1), the
start square is empty, the en-passant target is cleared and the side to move
is flipped — but the relocated pawn's `has_moved` flag is still `false`,
because `game_move` never sets it, contradicting the claim. -/
theorem c1_move_leaves_has_moved_false :
    (game_move game_new (['e', '4'])).2 = 0 ∧
    (game_move game_new (['e', '4'])).1.board 4 3
      = some ⟨PieceType.pawn, true, false⟩ ∧
    (game_move game_new (['e', '4'])).1.board 4 1 = none ∧
    (game_move game_new (['e', '4'])).1.en_passant = none ∧
    (game_move game_new (['e', '4'])).1.white_turn = false :=
  ⟨rfl, rfl, rfl, rfl, rfl⟩

/-- Claim C2 (code evaluation at the failing input): on the starting board
with white to move, the token `h3` — a pawn move whose destination has file
index 2, not 7 — is rejected with the promotion parse error, because the
code's promotion trigger tests `end.rank == 7` (the letter axis, i.e. the
h-column) instead of the file axis demanded by the claim. -/
theorem c2_promotion_checks_rank_axis :
    game_translate game_new (['h', '3']) = .error .invalidPromotion ∧
    ResolveError.kind .invalidPromotion = .MalformedToken :=
  ⟨rfl, rfl⟩

/-- Claim C3, counterexample to the claim as stated: a bishop is "reachable"
to its own square (start = end), where the common coordinate difference is
zero, so reachability does not require a nonzero difference. -/
theorem c3_degenerate_counterexample :
    valid_pos ⟨0, 0⟩ ∧
    game_bishop_only.board 0 0 = some ⟨PieceType.bishop, true, false⟩ ∧
    game_is_reachable game_bishop_only ⟨0, 0⟩ ⟨0, 0⟩ = true ∧
    ¬(rank_diff ⟨0, 0⟩ ⟨0, 0⟩ = file_diff ⟨0, 0⟩ ⟨0, 0⟩ ∧
      rank_diff ⟨0, 0⟩ ⟨0, 0⟩ ≠ 0) := by
  refine ⟨by decide, rfl, rfl, by decide⟩

/-- Claim C3, amended with `start ≠ end`: for distinct valid squares, a
bishop reaches only equal nonzero rank/file differences, a rook only
exactly-one-zero differences, and a queen only one of those two shapes. -/
theorem c3_shape_necessary (g : Game) (s e : Position) (p : Piece)
    (hs : valid_pos s) (he : valid_pos e) (hne : s ≠ e)
    (hp : g.board s.rank s.file = some p) :
    (p.type = PieceType.bishop → game_is_reachable g s e = true →
      rank_diff s e = file_diff s e ∧ rank_diff s e ≠ 0) ∧
    (p.type = PieceType.rook → game_is_reachable g s e = true →
      (rank_diff s e = 0 ∧ file_diff s e ≠ 0) ∨
      (rank_diff s e ≠ 0 ∧ file_diff s e = 0)) ∧
    (p.type = PieceType.queen → game_is_reachable g s e = true →
      (rank_diff s e = file_diff s e ∧ rank_diff s e ≠ 0) ∨
      (rank_diff s e = 0 ∧ file_diff s e ≠ 0) ∨
      (rank_diff s e ≠ 0 ∧ file_diff s e = 0)) := by
  have hne0 : ¬(rank_diff s e = 0 ∧ file_diff s e = 0) := by
    rintro ⟨h1, h2⟩
    apply hne
    have e1 : e.rank = s.rank := (rank_diff_zero s e h1).2
    have e2 : e.file = s.file := (file_diff_zero s e h2).2
    cases s
    cases e
    simp_all
  refine ⟨?_, ?_, ?_⟩ <;> intro hpt hreach <;>
    unfold game_is_reachable at hreach <;> rw [hp] at hreach <;>
    dsimp only at hreach <;> rw [hpt] at hreach <;> dsimp only at hreach
  · by_cases hsh : rank_diff s e ≠ file_diff s e
    · rw [if_pos hsh] at hreach
      cases hreach
    · push_neg at hsh
      exact ⟨hsh, fun h0 => hne0 ⟨h0, hsh ▸ h0⟩⟩
  · by_cases hsh : rank_diff s e ≠ 0 ∧ file_diff s e ≠ 0
    · rw [if_pos hsh] at hreach
      cases hreach
    · push_neg at hsh
      by_cases h0 : rank_diff s e = 0
      · exact Or.inl ⟨h0, fun hf => hne0 ⟨h0, hf⟩⟩
      · exact Or.inr ⟨h0, hsh h0⟩
  · by_cases heq : rank_diff s e = file_diff s e
    · exact Or.inl ⟨heq, fun h0 => hne0 ⟨h0, heq ▸ h0⟩⟩
    · by_cases h0 : rank_diff s e = 0
      · exact Or.inr (Or.inl ⟨h0, fun hf => hne0 ⟨h0, hf⟩⟩)
      · by_cases h1 : file_diff s e = 0
        · exact Or.inr (Or.inr ⟨h0, h1⟩)
        · rw [if_pos ⟨heq, h0, h1⟩] at hreach
          cases hreach

/-- Witness for the amended claim C3, at the corner bishop reaching (2,2). -/
theorem c3_shape_necessary_witness :
    (⟨0, 0⟩ : Position) ≠ ⟨2, 2⟩ ∧
    game_bishop_only.board 0 0 = some ⟨PieceType.bishop, true, false⟩ ∧
    game_is_reachable game_bishop_only ⟨0, 0⟩ ⟨2, 2⟩ = true ∧
    (rank_diff ⟨0, 0⟩ ⟨2, 2⟩ = file_diff ⟨0, 0⟩ ⟨2, 2⟩ ∧
      rank_diff ⟨0, 0⟩ ⟨2, 2⟩ ≠ 0) := by
  refine ⟨by decide, rfl, rfl, ?_⟩
  exact (c3_shape_necessary game_bishop_only ⟨0, 0⟩ ⟨2, 2⟩
    ⟨PieceType.bishop, true, false⟩ (by decide) (by decide) (by decide) rfl).1 rfl rfl

/-- Claim C4: a pawn is reachable exactly by a one-step move to the adjacent
file in its direction (any rank difference up to 1, regardless of the
destination's occupant), or by the straight double advance along its rank,
which additionally requires `has_moved = false` and an empty intermediate
square; in particular a pawn that has moved is never reachable two squares
forward. -/
theorem c4_pawn_reachable_iff (g : Game) (s e : Position) (p : Piece)
    (hs : valid_pos s) (he : valid_pos e)
    (hp : g.board s.rank s.file = some p) (hpt : p.type = PieceType.pawn) :
    (game_is_reachable g s e = true ↔
      ((rank_diff s e ≤ 1 ∧ e.file = s.file + pawn_inc p) ∨
       (e.rank = s.rank ∧ e.file = s.file + 2 * pawn_inc p ∧
        p.has_moved = false ∧ g.board s.rank (s.file + pawn_inc p) = none))) ∧
    (p.has_moved = true → e.rank = s.rank → e.file = s.file + 2 * pawn_inc p →
      game_is_reachable g s e = false) := by
  have hinc : pawn_inc p = 1 ∨ pawn_inc p = -1 := by
    unfold pawn_inc
    by_cases h : p.is_white <;> simp [h]
  have main : game_is_reachable g s e = true ↔
      ((rank_diff s e ≤ 1 ∧ e.file = s.file + pawn_inc p) ∨
       (e.rank = s.rank ∧ e.file = s.file + 2 * pawn_inc p ∧
        p.has_moved = false ∧ g.board s.rank (s.file + pawn_inc p) = none)) := by
    unfold game_is_reachable
    rw [hp]
    dsimp only
    rw [hpt]
    dsimp only
    by_cases h1 : rank_diff s e ≤ 1 ∧ e.file = s.file + pawn_inc p
    · rw [if_pos h1]
      exact iff_of_true rfl (Or.inl h1)
    · rw [if_neg h1]
      by_cases h2 : e.rank = s.rank ∧ e.file = s.file + 2 * pawn_inc p
      · rw [if_pos h2]
        simp only [Bool.and_eq_true, Bool.not_eq_true', Option.isNone_iff_eq_none]
        constructor
        · rintro ⟨hm, hb⟩
          exact Or.inr ⟨h2.1, h2.2, hm, hb⟩
        · rintro (hcon | ⟨_, _, hm, hb⟩)
          · exact absurd hcon h1
          · exact ⟨hm, hb⟩
      · rw [if_neg h2]
        constructor
        · intro hfalse
          cases hfalse
        · rintro (hcon | ⟨ha, hb, _⟩)
          · exact absurd hcon h1
          · exact absurd ⟨ha, hb⟩ h2
  refine ⟨main, fun hm h1 h2 => ?_⟩
  cases hb : game_is_reachable g s e
  · rfl
  · exfalso
    rcases main.mp hb with ⟨_, hf⟩ | ⟨_, _, hm', _⟩
    · rcases hinc with hi | hi <;> rw [hi] at hf h2 <;> omega
    · rw [hm] at hm'
      cases hm'

/-- Witness for claim C4: the starting-board pawn double advance e2–e4. -/
theorem c4_pawn_reachable_iff_witness :
    valid_pos ⟨4, 1⟩ ∧ valid_pos ⟨4, 3⟩ ∧
    game_new.board 4 1 = some ⟨PieceType.pawn, true, false⟩ ∧
    game_is_reachable game_new ⟨4, 1⟩ ⟨4, 3⟩ = true := by
  refine ⟨by decide, by decide, rfl, ?_⟩
  exact (c4_pawn_reachable_iff game_new ⟨4, 1⟩ ⟨4, 3⟩
    ⟨PieceType.pawn, true, false⟩ (by decide) (by decide) rfl rfl).1.mpr
    (Or.inr (by decide))

theorem bool_eq_of_iff {a b : Bool} (h : a = true ↔ b = true) : a = b := by
  cases a <;> cases b <;> simp_all

theorem walk_fuel_eq (g : Game) (s e : Position)
    (hq : rank_diff s e = file_diff s e ∨ rank_diff s e = 0 ∨ file_diff s e = 0) :
    ∀ fuel : Nat, ray_steps s e ≤ fuel →
      ray_walk g.board e.rank e.file (rank_inc s e) (file_inc s e) fuel
          (s.rank + rank_inc s e) (s.file + file_inc s e)
        = ray_walk g.board e.rank e.file (rank_inc s e) (file_inc s e) (ray_steps s e)
          (s.rank + rank_inc s e) (s.file + file_inc s e) := by
  intro fuel hfuel
  rcases Nat.eq_zero_or_pos (ray_steps s e) with hd0 | hd0
  · have hr0 : rank_diff s e = 0 := by
      unfold ray_steps at hd0
      omega
    have hf0 : file_diff s e = 0 := by
      unfold ray_steps at hd0
      omega
    have e1 : s.rank + rank_inc s e = e.rank := by
      rw [(rank_diff_zero s e hr0).1, (rank_diff_zero s e hr0).2]
      ring
    have e2 : s.file + file_inc s e = e.file := by
      rw [(file_diff_zero s e hf0).1, (file_diff_zero s e hf0).2]
      ring
    rw [e1, e2, ray_walk_at_end, ray_walk_at_end]
  · obtain ⟨d, hdd⟩ : ∃ d, ray_steps s e = d + 1 := ⟨ray_steps s e - 1, by omega⟩
    have hr := shape_reach_rank s e hq
    have hf := shape_reach_file s e hq
    rw [hdd] at hr hf
    have hno : ∀ i : Nat, i < d →
        ¬(s.rank + rank_inc s e + (i : Int) * rank_inc s e = e.rank ∧
          s.file + file_inc s e + (i : Int) * file_inc s e = e.file) := by
      intro i hi hcon
      apply shape_no_early s e hq (i + 1) (by omega)
      constructor
      · push_cast
        linear_combination hcon.1
      · push_cast
        linear_combination hcon.2
    have hreach1 : s.rank + rank_inc s e + (d : Int) * rank_inc s e = e.rank := by
      push_cast at hr ⊢
      linear_combination hr
    have hreach2 : s.file + file_inc s e + (d : Int) * file_inc s e = e.file := by
      push_cast at hf ⊢
      linear_combination hf
    have hiff1 := ray_walk_iff g.board e.rank e.file (rank_inc s e) (file_inc s e) d
      (s.rank + rank_inc s e) (s.file + file_inc s e) fuel (by omega)
      hreach1 hreach2 hno
    have hiff2 := ray_walk_iff g.board e.rank e.file (rank_inc s e) (file_inc s e) d
      (s.rank + rank_inc s e) (s.file + file_inc s e) (ray_steps s e) (by omega)
      hreach1 hreach2 hno
    exact bool_eq_of_iff (hiff1.trans hiff2.symm)

/-- Claim C5: for a bishop/rook/queen move whose direction check passes,
reachability holds exactly when every square strictly between start and end
is empty, and the result never depends on the occupant of the destination
square (changing the board only at `end`, while the piece at `start` stays
the same, cannot change the outcome). -/
theorem c5_ray_clear_iff (g : Game) (s e : Position) (p : Piece)
    (hs : valid_pos s) (he : valid_pos e)
    (hp : g.board s.rank s.file = some p)
    (hk : p.type = PieceType.bishop ∨ p.type = PieceType.rook ∨
      p.type = PieceType.queen)
    (hsh : shape_ok p.type s e = true) :
    (game_is_reachable g s e = true ↔
      ∀ q ∈ squares_between s e, g.board q.rank q.file = none) ∧
    (∀ b2 : Board,
      (∀ r f : Int, ¬(r = e.rank ∧ f = e.file) → b2 r f = g.board r f) →
      b2 s.rank s.file = g.board s.rank s.file →
      game_is_reachable ⟨b2, g.en_passant, g.white_turn⟩ s e
        = game_is_reachable g s e) := by
  have hq := shape_ok_disj p.type s e hsh
  have h1 : game_is_reachable g s e = true ↔
      ∀ q ∈ squares_between s e, g.board q.rank q.file = none := by
    rw [reachable_brq g s e p hp hsh]
    exact walk_between_iff g s e hq
  refine ⟨h1, fun b2 hag hst => ?_⟩
  have hp2 : (⟨b2, g.en_passant, g.white_turn⟩ : Game).board s.rank s.file = some p := by
    show b2 s.rank s.file = some p
    rw [hst, hp]
  have h2 : game_is_reachable ⟨b2, g.en_passant, g.white_turn⟩ s e = true ↔
      ∀ q ∈ squares_between s e, b2 q.rank q.file = none := by
    rw [reachable_brq ⟨b2, g.en_passant, g.white_turn⟩ s e p hp2 hsh]
    exact walk_between_iff ⟨b2, g.en_passant, g.white_turn⟩ s e hq
  have hbet : ∀ q ∈ squares_between s e, b2 q.rank q.file = g.board q.rank q.file := by
    intro q hqmem
    rw [squares_between_mem] at hqmem
    obtain ⟨i, hi, rfl⟩ := hqmem
    apply hag
    dsimp only
    rintro ⟨hc1, hc2⟩
    apply shape_no_early s e hq (i + 1) (by omega)
    constructor
    · push_cast
      linear_combination hc1
    · push_cast
      linear_combination hc2
  apply bool_eq_of_iff
  rw [h1, h2]
  constructor
  · intro h q hqm
    rw [← hbet q hqm]
    exact h q hqm
  · intro h q hqm
    rw [hbet q hqm]
    exact h q hqm

/-- Witness for claim C5: the corner bishop reaches (3,3) over an empty
diagonal. -/
theorem c5_ray_clear_iff_witness :
    valid_pos ⟨0, 0⟩ ∧ valid_pos ⟨3, 3⟩ ∧
    game_bishop_only.board 0 0 = some ⟨PieceType.bishop, true, false⟩ ∧
    game_is_reachable game_bishop_only ⟨0, 0⟩ ⟨3, 3⟩ = true := by
  refine ⟨by decide, by decide, rfl, ?_⟩
  exact (c5_ray_clear_iff game_bishop_only ⟨0, 0⟩ ⟨3, 3⟩
    ⟨PieceType.bishop, true, false⟩ (by decide) (by decide) rfl (Or.inl rfl)
    (by decide)).1.mpr (by decide)

/-- Claim C6: the start-square deduction returns `NoLegalSource` when no
scanned square passes the candidate test, the unique passing square when
exactly one does, and `AmbiguousSource` carrying the candidate count when
several do. -/
theorem c6_deduce_start_spec (g : Game) (t : PieceType) (e s : Position) :
    game_deduce_start g t e s =
      match deduce_candidates g t e s with
      | [] => .error .noLegalSource
      | [c] => .ok c
      | cs => .error (.ambiguousSource cs.length) := by
  unfold game_deduce_start deduce_candidates
  simp only [count_last_foldl]
  rcases hf : (deduce_scanned s).filter (deduce_match g t e) with _ | ⟨c, _ | ⟨c2, l⟩⟩
  · simp [deduce_return]
  · simp [deduce_return]
  · simp [deduce_return]

/-- Claim C7: whenever translation of a token fails, `game_move` leaves the
game exactly as it was (same board, same side to move, same en-passant
state) and reports failure.  `game_translate` itself takes the game
read-only (a `const` pointer in the source) and performs no writes. -/
theorem c7_no_mutation_on_failure (g : Game) (alg : List Char) (err : ResolveError)
    (h : game_translate g alg = .error err) :
    game_move g alg = (g, 1) ∧
    (game_move g alg).1.board = g.board ∧
    (game_move g alg).1.white_turn = g.white_turn ∧
    (game_move g alg).1.en_passant = g.en_passant := by
  have hm : game_move g alg = (g, 1) := by
    unfold game_move
    rw [h]
  exact ⟨hm, by rw [hm], by rw [hm], by rw [hm]⟩

/-- Witness for claim C7: the malformed token `z9` fails and mutates
nothing. -/
theorem c7_no_mutation_on_failure_witness :
    game_translate game_new (['z', '9']) = .error .expectedRank ∧
    game_move game_new (['z', '9']) = (game_new, 1) :=
  ⟨rfl, (c7_no_mutation_on_failure game_new (['z', '9']) .expectedRank rfl).1⟩

/-- Claim C8: on the starting board with white to move, `e4` resolves to the
pawn double advance from (rank 4, file 1) — e2 in standard naming — to
(rank 4, file 3) — e4. -/
theorem c8_e4_resolves :
    game_translate game_new (['e', '4']) = .ok ⟨⟨4, 1⟩, ⟨4, 3⟩⟩ := rfl

/-- Claim C9: a fresh game has no en-passant piece, and `game_move` (which
always resets `en_passant` to NULL on success and leaves the game untouched
on failure) preserves that absence, so no reachable state ever records an
en-passant-eligible pawn. -/
theorem c9_en_passant_always_none :
    game_new.en_passant = none ∧
    ∀ (g : Game) (alg : List Char), g.en_passant = none →
      (game_move g alg).1.en_passant = none := by
  refine ⟨rfl, fun g alg h => ?_⟩
  unfold game_move
  cases h2 : game_translate g alg with
  | error err => exact h
  | ok m => rfl

/-- Witness for claim C9: after the opening move `e4` the en-passant field
is still empty. -/
theorem c9_en_passant_always_none_witness :
    (game_move game_new (['e', '4'])).1.en_passant = none :=
  c9_en_passant_always_none.2 game_new (['e', '4']) rfl

/-- Claim C10: for any bishop/rook/queen move passing the direction check,
the ray walk reaches the destination in exactly `ray_steps` unit steps
(giving the fuel bound used by `game_is_reachable`), every square it can
visit lies inside the 8x8 board, any fuel beyond `ray_steps` yields the same
answer (the loop exits by reaching `end`), and `game_is_reachable` equals
that terminating walk. -/
theorem c10_ray_walk_total (g : Game) (s e : Position) (p : Piece)
    (hs : valid_pos s) (he : valid_pos e)
    (hp : g.board s.rank s.file = some p)
    (hk : p.type = PieceType.bishop ∨ p.type = PieceType.rook ∨
      p.type = PieceType.queen)
    (hsh : shape_ok p.type s e = true) :
    (s.rank + (ray_steps s e : Int) * rank_inc s e = e.rank ∧
     s.file + (ray_steps s e : Int) * file_inc s e = e.file) ∧
    (∀ i : Nat, i ≤ ray_steps s e →
      valid_pos ⟨s.rank + (i : Int) * rank_inc s e,
                 s.file + (i : Int) * file_inc s e⟩) ∧
    (∀ fuel : Nat, ray_steps s e ≤ fuel →
      ray_walk g.board e.rank e.file (rank_inc s e) (file_inc s e) fuel
          (s.rank + rank_inc s e) (s.file + file_inc s e)
        = ray_walk g.board e.rank e.file (rank_inc s e) (file_inc s e)
          (ray_steps s e) (s.rank + rank_inc s e) (s.file + file_inc s e)) ∧
    game_is_reachable g s e =
      ray_walk g.board e.rank e.file (rank_inc s e) (file_inc s e)
        (ray_steps s e) (s.rank + rank_inc s e) (s.file + file_inc s e) := by
  have hq := shape_ok_disj p.type s e hsh
  have hr := shape_reach_rank s e hq
  have hf := shape_reach_file s e hq
  refine ⟨⟨hr, hf⟩, ?_, walk_fuel_eq g s e hq, reachable_brq g s e p hp hsh⟩
  intro i hi
  unfold valid_pos at hs he ⊢
  dsimp only
  obtain ⟨hsr0, hsr8, hsf0, hsf8⟩ := hs
  obtain ⟨her0, her8, hef0, hef8⟩ := he
  have hrb : 0 ≤ s.rank + (i : Int) * rank_inc s e ∧
      s.rank + (i : Int) * rank_inc s e < 8 := by
    rcases Nat.eq_zero_or_pos (rank_diff s e) with h0 | h0
    · rw [(rank_diff_zero s e h0).1]
      omega
    · have hd : rank_diff s e = ray_steps s e := by
        unfold ray_steps
        rcases hq with h | h | h <;> omega
      rcases rank_inc_pm s e (by omega) with hi1 | hi1 <;> rw [hi1] at hr <;>
        rw [hi1] <;> omega
  have hfb : 0 ≤ s.file + (i : Int) * file_inc s e ∧
      s.file + (i : Int) * file_inc s e < 8 := by
    rcases Nat.eq_zero_or_pos (file_diff s e) with h0 | h0
    · rw [(file_diff_zero s e h0).1]
      omega
    · have hd : file_diff s e = ray_steps s e := by
        unfold ray_steps
        rcases hq with h | h | h <;> omega
      rcases file_inc_pm s e (by omega) with hi1 | hi1 <;> rw [hi1] at hf <;>
        rw [hi1] <;> omega
  exact ⟨hrb.1, hrb.2, hfb.1, hfb.2⟩

/-- Witness for claim C10: the corner bishop's walk to (3,3). -/
theorem c10_ray_walk_total_witness :
    valid_pos ⟨0, 0⟩ ∧ valid_pos ⟨3, 3⟩ ∧
    game_bishop_only.board 0 0 = some ⟨PieceType.bishop, true, false⟩ ∧
    shape_ok PieceType.bishop ⟨0, 0⟩ ⟨3, 3⟩ = true ∧
    ((⟨0, 0⟩ : Position).rank
        + (ray_steps ⟨0, 0⟩ ⟨3, 3⟩ : Int) * rank_inc ⟨0, 0⟩ ⟨3, 3⟩
      = (⟨3, 3⟩ : Position).rank ∧
     (⟨0, 0⟩ : Position).file
        + (ray_steps ⟨0, 0⟩ ⟨3, 3⟩ : Int) * file_inc ⟨0, 0⟩ ⟨3, 3⟩
      = (⟨3, 3⟩ : Position).file) := by
  refine ⟨by decide, by decide, rfl, by decide, ?_⟩
  exact (c10_ray_walk_total game_bishop_only ⟨0, 0⟩ ⟨3, 3⟩
    ⟨PieceType.bishop, true, false⟩ (by decide) (by decide) rfl (Or.inl rfl)
    (by decide)).1
